import Mathlib

/-!
Verification of the chunked-transfer core of `src/assets/unified-transfer.js`
(class `UnifiedTransfer`; the file contains two concatenated variants of the
class and all line references of the claims point into the second, current
variant, lines 524-1252).

Shallow embedding conventions:
* a byte is a `Nat` below 256, a byte array (`Uint8Array`) is a `List Nat`;
* the obfuscation key `this.config.secretKey` is passed explicitly;
* fallible code returns `Except`;
* the receiver session object is the `Receiver` structure, its JavaScript
  `Map` of pending chunks is an association list with the exact
  replace-or-append / first-match semantics of `Map.set` / `Map.get` /
  `Map.delete`;
* the sink (`memoryChunks` pushes or `writer.write` calls) is modelled as the
  ordered log of written payloads.
-/

namespace UnifiedTransfer

/-- Byte used by `encryptDecrypt` at position `i`: `key[i % key.length]`.
When the key is empty, `i % 0` is `NaN` in JavaScript, the indexed read gives
`undefined`, and `x ^ undefined` coerces `undefined` to `0`. -/
def keyByte (key : List Nat) (i : Nat) : Nat :=
  if key.length = 0 then 0 else key.getD (i % key.length) 0

/-- Loop body of `encryptDecrypt` (lines 569-575): position-indexed XOR of the
data with the repeating key; the store into the result `Uint8Array` keeps the
low eight bits. -/
def encryptDecryptAux (key : List Nat) : Nat → List Nat → List Nat
  | _, [] => []
  | i, b :: rest => (b ^^^ keyByte key i) % 256 :: encryptDecryptAux key (i + 1) rest

/-- `encryptDecrypt(data, key)` (lines 569-575): `result[i] = data[i] XOR
key[i % key.length]`. -/
def encryptDecrypt (data key : List Nat) : List Nat :=
  encryptDecryptAux key 0 data

/-- Little-endian bytes written by `DataView.setUint32(_, n, true)`: the value
is first wrapped to 32 bits, then split into four bytes. -/
def le4 (n : Nat) : List Nat :=
  [n % 256, n / 256 % 256, n / 65536 % 256, n / 16777216 % 256]

/-- `createPacket(type, fileId, chunkIndex, data)` (lines 614-647) under key
`key` (= `this.config.secretKey`): magic, one type byte (`new
Uint8Array([type])` keeps the low eight bits), one length byte for the
encoded transfer id (`fileId` here is already the `TextEncoder` byte array),
the id bytes, the little-endian 32-bit chunk index, the little-endian 32-bit
obfuscated-payload length, then the obfuscated payload. -/
def createPacket (key : List Nat) (type : Nat) (fileId : List Nat)
    (chunkIndex : Nat) (data : List Nat) : List Nat :=
  let encryptedData := encryptDecrypt data key
  [0xAA, 0xBB, 0xCC, 0xDD] ++ [type % 256] ++ [fileId.length % 256] ++ fileId
    ++ le4 chunkIndex ++ le4 encryptedData.length ++ encryptedData

/-- The 32-bit little-endian read of the first four entries of a byte list,
missing entries reading as zero. -/
def leBytes (m : List Nat) : Nat :=
  m.getD 0 0 + 256 * m.getD 1 0 + 65536 * m.getD 2 0 + 16777216 * m.getD 3 0

/-- `DataView.getUint32(i, true)`: little-endian read of bytes `i..i+3`. -/
def leGet4 (l : List Nat) (i : Nat) : Nat :=
  leBytes (l.drop i)

/-- `Uint8Array.slice(s, e)`: clamping slice, empty when the range is empty or
out of bounds. -/
def sliceList (l : List Nat) (s e : Nat) : List Nat :=
  (l.drop s).take (e - s)

/-- Outcomes thrown by `parsePacket`: the explicit `Invalid packet magic`
error (line 658), and the `RangeError` a `DataView.getUint32` raises when the
requested four bytes run past the end of the buffer. -/
inductive ParseError where
  | invalidMagic
  | rangeError
deriving Repr, DecidableEq

/-- Result object of `parsePacket` (lines 686-691).  The `type` field is
`data[offset++]`, which is `undefined` (here `none`) when the buffer ends
before index 4. -/
structure ParsedPacket where
  type : Option Nat
  fileId : List Nat
  chunkIndex : Nat
  data : List Nat
deriving Repr, DecidableEq

/-- The magic check of lines 657-659: all four leading bytes present and equal
to `AA BB CC DD` (a missing byte reads as `undefined` and fails the
comparison). -/
def magicOk (l : List Nat) : Prop :=
  l.get? 0 = some 0xAA ∧ l.get? 1 = some 0xBB ∧ l.get? 2 = some 0xCC ∧ l.get? 3 = some 0xDD

instance magicOkDecidable (l : List Nat) : Decidable (magicOk l) :=
  inferInstanceAs (Decidable (_ = _ ∧ _ = _ ∧ _ = _ ∧ _ = _))

/-- `parsePacket(arrayBuffer)` (lines 652-692) under key `key`.

When the buffer passes the magic check but ends before index 5, the
`fileIdLen` read gives `undefined` and every later offset is `NaN`; JavaScript
clamps `NaN` slice bounds and `NaN` `DataView` indices to `0`, so both 32-bit
reads return the magic bytes and the payload slice is empty — the parse
succeeds.  Otherwise the declared-length reads proceed: each `getUint32`
raises a `RangeError` when fewer than four bytes remain at its offset, while
both `slice` calls clamp silently. -/
def parsePacket (key : List Nat) (l : List Nat) : Except ParseError ParsedPacket :=
  if magicOk l then
    match l.get? 5 with
    | none =>
        .ok { type := l.get? 4, fileId := [], chunkIndex := leGet4 l 0,
              data := encryptDecrypt [] key }
    | some fileIdLen =>
        let fileId := sliceList l 6 (6 + fileIdLen)
        let offset := 6 + fileIdLen
        if l.length < offset + 4 then .error .rangeError
        else
          let chunkIndex := leGet4 l offset
          if l.length < offset + 8 then .error .rangeError
          else
            let dataLength := leGet4 l (offset + 4)
            let encryptedData := sliceList l (offset + 8) (offset + 8 + dataLength)
            .ok { type := l.get? 4, fileId := fileId, chunkIndex := chunkIndex,
                  data := encryptDecrypt encryptedData key }
  else .error .invalidMagic

theorem keyByte_lt (key : List Nat) (hk : ∀ b ∈ key, b < 256) (i : Nat) :
    keyByte key i < 256 := by
  unfold keyByte
  split
  · omega
  · rename_i h
    have hlen : 0 < key.length := Nat.pos_of_ne_zero h
    have hlt : i % key.length < key.length := Nat.mod_lt _ hlen
    have hmem : key.getD (i % key.length) 0 ∈ key := by
      rw [List.getD_eq_getElem _ _ hlt]
      exact List.getElem_mem hlt
    exact hk _ hmem

theorem xor_byte_lt {a b : Nat} (ha : a < 256) (hb : b < 256) : a ^^^ b < 256 := by
  have := Nat.xor_lt_two_pow (n := 8) (by simpa using ha) (by simpa using hb)
  simpa using this

theorem encryptDecryptAux_involutive (key : List Nat) (hk : ∀ b ∈ key, b < 256) :
    ∀ (i : Nat) (data : List Nat), (∀ b ∈ data, b < 256) →
      encryptDecryptAux key i (encryptDecryptAux key i data) = data := by
  intro i data
  induction data generalizing i with
  | nil => intro _; rfl
  | cons b rest ih =>
    intro hd
    have hb : b < 256 := hd b (by simp)
    have hkb : keyByte key i < 256 := keyByte_lt key hk i
    have hxor : b ^^^ keyByte key i < 256 := xor_byte_lt hb hkb
    simp only [encryptDecryptAux]
    congr 1
    · rw [Nat.mod_eq_of_lt hxor, Nat.mod_eq_of_lt (xor_byte_lt hxor hkb),
        Nat.xor_cancel_right]
    · exact ih (i + 1) (fun x hx => hd x (by simp [hx]))

theorem encryptDecrypt_involutive (data key : List Nat)
    (hd : ∀ b ∈ data, b < 256) (hk : ∀ b ∈ key, b < 256) :
    encryptDecrypt (encryptDecrypt data key) key = data :=
  encryptDecryptAux_involutive key hk 0 data hd

/-- Claim C9: the payload obfuscator is self-inverse: for every byte array and
every non-empty key, `encryptDecrypt (encryptDecrypt bytes key) key = bytes`,
the transform being the pointwise XOR with the repeating key. -/
theorem c9_obfuscation_involution (data key : List Nat)
    (hd : ∀ b ∈ data, b < 256) (hk : ∀ b ∈ key, b < 256) (_hne : key ≠ []) :
    encryptDecrypt (encryptDecrypt data key) key = data :=
  encryptDecrypt_involutive data key hd hk

theorem c9_obfuscation_involution_witness :
    (∀ b ∈ [10, 255, 0], b < 256) ∧ (∀ b ∈ [7, 3], b < 256) ∧ ([7, 3] : List Nat) ≠ [] ∧
      encryptDecrypt (encryptDecrypt [10, 255, 0] [7, 3]) [7, 3] = [10, 255, 0] :=
  ⟨by decide, by decide, by decide,
    c9_obfuscation_involution [10, 255, 0] [7, 3] (by decide) (by decide) (by decide)⟩

theorem length_encryptDecryptAux (key : List Nat) :
    ∀ (i : Nat) (l : List Nat), (encryptDecryptAux key i l).length = l.length := by
  intro i l
  induction l generalizing i with
  | nil => rfl
  | cons b rest ih => simp [encryptDecryptAux, ih]

theorem length_encryptDecrypt (data key : List Nat) :
    (encryptDecrypt data key).length = data.length :=
  length_encryptDecryptAux key 0 data

theorem leBytes_le4_append (n : Nat) (rest : List Nat) (h : n < 4294967296) :
    leBytes (le4 n ++ rest) = n := by
  show n % 256 + 256 * (n / 256 % 256) + 65536 * (n / 65536 % 256)
      + 16777216 * (n / 16777216 % 256) = n
  omega

theorem length_le4 (n : Nat) : (le4 n).length = 4 := rfl

/-- Evaluation of `parsePacket` on any buffer of the exact shape produced by
`createPacket`: the parse succeeds and recovers each field. -/
theorem parsePacket_ok (key : List Nat) (t ci : Nat) (fid enc : List Nat)
    (hci : ci < 4294967296) (hdl : enc.length < 4294967296) :
    parsePacket key (0xAA :: 0xBB :: 0xCC :: 0xDD :: t :: fid.length ::
        (fid ++ (le4 ci ++ (le4 enc.length ++ enc)))) =
      .ok { type := some t, fileId := fid, chunkIndex := ci,
            data := encryptDecrypt enc key } := by
  have hLen : (0xAA :: 0xBB :: 0xCC :: 0xDD :: t :: fid.length ::
      (fid ++ (le4 ci ++ (le4 enc.length ++ enc)))).length
        = 14 + fid.length + enc.length := by
    simp [le4]
    omega
  have hmagic : magicOk (0xAA :: 0xBB :: 0xCC :: 0xDD :: t :: fid.length ::
      (fid ++ (le4 ci ++ (le4 enc.length ++ enc)))) := ⟨rfl, rfl, rfl, rfl⟩
  unfold parsePacket
  rw [if_pos hmagic]
  have h5 : (0xAA :: 0xBB :: 0xCC :: 0xDD :: t :: fid.length ::
      (fid ++ (le4 ci ++ (le4 enc.length ++ enc)))).get? 5 = some fid.length := rfl
  rw [h5]
  dsimp only
  rw [if_neg (by omega), if_neg (by omega)]
  have hdrop6 : (0xAA :: 0xBB :: 0xCC :: 0xDD :: t :: fid.length ::
      (fid ++ (le4 ci ++ (le4 enc.length ++ enc)))).drop 6
        = fid ++ (le4 ci ++ (le4 enc.length ++ enc)) := rfl
  have hdropFid : (0xAA :: 0xBB :: 0xCC :: 0xDD :: t :: fid.length ::
      (fid ++ (le4 ci ++ (le4 enc.length ++ enc)))).drop (6 + fid.length)
        = le4 ci ++ (le4 enc.length ++ enc) := by
    rw [← List.drop_drop, hdrop6, List.drop_left]
  have hdropCi : (0xAA :: 0xBB :: 0xCC :: 0xDD :: t :: fid.length ::
      (fid ++ (le4 ci ++ (le4 enc.length ++ enc)))).drop (6 + fid.length + 4)
        = le4 enc.length ++ enc := by
    rw [← List.drop_drop, hdropFid]
    exact rfl
  have hdropLen : (0xAA :: 0xBB :: 0xCC :: 0xDD :: t :: fid.length ::
      (fid ++ (le4 ci ++ (le4 enc.length ++ enc)))).drop (6 + fid.length + 8)
        = enc := by
    rw [← List.drop_drop, hdropFid]
    exact rfl
  have hslice : sliceList (0xAA :: 0xBB :: 0xCC :: 0xDD :: t :: fid.length ::
      (fid ++ (le4 ci ++ (le4 enc.length ++ enc)))) 6 (6 + fid.length) = fid := by
    unfold sliceList
    rw [hdrop6, show 6 + fid.length - 6 = fid.length from by omega, List.take_left]
  have hchunk : leGet4 (0xAA :: 0xBB :: 0xCC :: 0xDD :: t :: fid.length ::
      (fid ++ (le4 ci ++ (le4 enc.length ++ enc)))) (6 + fid.length) = ci := by
    unfold leGet4
    rw [hdropFid]
    exact leBytes_le4_append ci _ hci
  have hdata : leGet4 (0xAA :: 0xBB :: 0xCC :: 0xDD :: t :: fid.length ::
      (fid ++ (le4 ci ++ (le4 enc.length ++ enc)))) (6 + fid.length + 4) = enc.length := by
    unfold leGet4
    rw [hdropCi]
    exact leBytes_le4_append enc.length _ hdl
  have hpayload : sliceList (0xAA :: 0xBB :: 0xCC :: 0xDD :: t :: fid.length ::
      (fid ++ (le4 ci ++ (le4 enc.length ++ enc)))) (6 + fid.length + 8)
        (6 + fid.length + 8 + enc.length) = enc := by
    unfold sliceList
    rw [hdropLen, show 6 + fid.length + 8 + enc.length - (6 + fid.length + 8) = enc.length
      from by omega, List.take_length]
  rw [hslice, hchunk, hdata, hpayload]
  rfl

/-- Claim C2: decoding an encoded packet under the same key returns exactly
the original type byte, transfer identifier (encoded length at most 255),
32-bit sequence number, and raw payload. -/
theorem c2_round_trip_framing (key : List Nat) (type : Nat) (fileId : List Nat)
    (chunkIndex : Nat) (data : List Nat)
    (htype : type < 256) (hfid : fileId.length ≤ 255)
    (hseq : chunkIndex < 4294967296) (hdlen : data.length < 4294967296)
    (hdb : ∀ b ∈ data, b < 256) (hkb : ∀ b ∈ key, b < 256) :
    parsePacket key (createPacket key type fileId chunkIndex data) =
      .ok { type := some type, fileId := fileId, chunkIndex := chunkIndex, data := data } := by
  have henclen : (encryptDecrypt data key).length = data.length :=
    length_encryptDecrypt data key
  have hpacket : createPacket key type fileId chunkIndex data =
      0xAA :: 0xBB :: 0xCC :: 0xDD :: type :: fileId.length ::
        (fileId ++ (le4 chunkIndex ++ (le4 (encryptDecrypt data key).length
          ++ encryptDecrypt data key))) := by
    simp [createPacket, Nat.mod_eq_of_lt htype,
      Nat.mod_eq_of_lt (show fileId.length < 256 from by omega), List.append_assoc]
  rw [hpacket, parsePacket_ok key type chunkIndex fileId (encryptDecrypt data key) hseq
    (by omega), encryptDecrypt_involutive data key hdb hkb]

theorem c2_round_trip_framing_witness :
    parsePacket [9, 200] (createPacket [9, 200] 1 [65, 66] 7 [10, 20, 30]) =
      .ok { type := some 1, fileId := [65, 66], chunkIndex := 7, data := [10, 20, 30] } :=
  c2_round_trip_framing [9, 200] 1 [65, 66] 7 [10, 20, 30]
    (by decide) (by decide) (by decide) (by decide) (by decide) (by decide)

/-- Claim C4 counterexample: on the six-byte buffer with valid magic, type `1`
and declared transfer-id length `0`, the `getUint32` read for the chunk index
needs bytes 6-9 and raises a bounds `RangeError`, not the malformed-packet
error; and on a buffer with a complete fixed header whose declared payload
length `5` runs past the end, `slice` clamps silently and decoding raises
nothing at all.  Both contradict the claim that every such input raises
`MalformedPacketError`. -/
theorem c4_malformed_counterexample :
    parsePacket [1] [0xAA, 0xBB, 0xCC, 0xDD, 1, 0] = .error .rangeError ∧
      parsePacket [1] [0xAA, 0xBB, 0xCC, 0xDD, 1, 0, 9, 0, 0, 0, 5, 0, 0, 0]
        = .ok { type := some 1, fileId := [], chunkIndex := 9, data := [] } ∧
      (ParseError.rangeError ≠ ParseError.invalidMagic) :=
  ⟨rfl, rfl, by decide⟩

/-- Claim C4 as amended: decoding raises the magic-mismatch error exactly on
buffers whose four leading bytes are not the magic sentinel (including buffers
shorter than four bytes, whose missing reads fail the comparison); a buffer
with valid magic but fewer than six bytes parses successfully through the
`NaN`-offset path; a buffer with valid magic whose remaining length cannot
hold the two four-byte header fields raises a bounds `RangeError` instead of
the malformed-packet error; and a buffer with a complete fixed header never
raises, whatever payload length it declares — the payload is clamped. -/
theorem c4_malformed_amended (key l : List Nat) :
    (¬ magicOk l → parsePacket key l = .error .invalidMagic) ∧
      (magicOk l → l.length < 6 → ∃ pkt, parsePacket key l = .ok pkt) ∧
      (magicOk l → 6 ≤ l.length → l.length < 6 + l.getD 5 0 + 8 →
        parsePacket key l = .error .rangeError) ∧
      (magicOk l → 6 + l.getD 5 0 + 8 ≤ l.length → ∃ pkt, parsePacket key l = .ok pkt) := by
  refine ⟨?_, ?_, ?_, ?_⟩
  · intro hm
    unfold parsePacket
    rw [if_neg hm]
  · intro hm hshort
    have h5 : l.get? 5 = none := by
      rw [List.get?_eq_none]
      omega
    unfold parsePacket
    rw [if_pos hm, h5]
    exact ⟨_, rfl⟩
  · intro hm hge hlt
    have h5 : l.get? 5 = some (l.getD 5 0) := by
      have : 5 < l.length := by omega
      rw [List.getD_eq_getElem l 0 this, List.get?_eq_getElem?, List.getElem?_eq_getElem this]
    unfold parsePacket
    rw [if_pos hm, h5]
    dsimp only
    by_cases hc : l.length < 6 + l.getD 5 0 + 4
    · rw [if_pos hc]
    · rw [if_neg hc, if_pos (by omega)]
  · intro hm hlong
    have h5 : l.get? 5 = some (l.getD 5 0) := by
      have : 5 < l.length := by omega
      rw [List.getD_eq_getElem l 0 this, List.get?_eq_getElem?, List.getElem?_eq_getElem this]
    unfold parsePacket
    rw [if_pos hm, h5]
    dsimp only
    rw [if_neg (by omega), if_neg (by omega)]
    exact ⟨_, rfl⟩

theorem c4_malformed_amended_witness :
    ¬ magicOk [0] ∧ parsePacket [1] [0] = .error .invalidMagic :=
  ⟨by decide, (c4_malformed_amended [1] [0]).1 (by decide)⟩

/-- A parsed file chunk as consumed by the receiver path: its sequence number
(`packet.chunkIndex`) and decrypted payload bytes (`packet.data`). -/
structure Packet where
  chunkIndex : Nat
  data : List Nat
deriving Repr, DecidableEq

/-- Receiver session object built by `startReceiving` (lines 963-977).  The
JavaScript `Map` of pending chunks is an association list; the sink — the
`memoryChunks` array in memory mode, or the ordered `writer.write` calls
otherwise — is the ordered log of written payloads; `completed` records that
`completeReceiving` ran (sink closed / blob finalized, `onComplete` fired). -/
structure Receiver where
  fileSize : Nat
  receivedBytes : Nat := 0
  chunks : List (Nat × List Nat) := []
  expectedChunk : Nat := 0
  sink : List (List Nat) := []
  isReady : Bool := false
  earlyChunks : List Packet := []
  completed : Bool := false
deriving Repr, DecidableEq

/-- Fresh receiver for a declared file size, as built at lines 963-977. -/
def initReceiver (fileSize : Nat) : Receiver :=
  { fileSize := fileSize }

/-- `Map.prototype.get`: value of the first (unique) entry with this key. -/
def mapGet? (m : List (Nat × List Nat)) (k : Nat) : Option (List Nat) :=
  match m with
  | [] => none
  | (k', v) :: rest => if k' = k then some v else mapGet? rest k

/-- `Map.prototype.set`: replace the value of an existing entry in place, or
append a new entry. -/
def mapSet (m : List (Nat × List Nat)) (k : Nat) (v : List Nat) : List (Nat × List Nat) :=
  match m with
  | [] => [(k, v)]
  | (k', v') :: rest => if k' = k then (k, v) :: rest else (k', v') :: mapSet rest k v

/-- `Map.prototype.delete`: remove the entry with this key.  A JavaScript
`Map` holds at most one entry per key (`set` replaces in place), so removing
every matching entry of the association list is the same operation. -/
def mapDelete (m : List (Nat × List Nat)) (k : Nat) : List (Nat × List Nat) :=
  match m with
  | [] => []
  | (k', v') :: rest => if k' = k then mapDelete rest k else (k', v') :: mapDelete rest k

/-- One-entry-per-iteration bound of the `writeSequentialChunks` loop: every
iteration deletes the entry it just wrote, so the loop runs at most
`chunks.length` times.  The fuel argument makes that bound structural; see
`writeSequentialChunks` and `writeSequentialChunks_drained`. -/
def drainFuel : Nat → Receiver → Receiver
  | 0, r => r
  | fuel + 1, r =>
    match mapGet? r.chunks r.expectedChunk with
    | some chunk =>
        drainFuel fuel { r with
          sink := r.sink ++ [chunk],
          chunks := mapDelete r.chunks r.expectedChunk,
          expectedChunk := r.expectedChunk + 1 }
    | none => r

/-- `writeSequentialChunks(receiver)` (lines 1127-1140): while the pending map
holds the next expected chunk, write it to the sink, evict it, and advance the
cursor. -/
def writeSequentialChunks (r : Receiver) : Receiver :=
  drainFuel r.chunks.length r

/-- `completeReceiving(receiver)` (lines 1145-1175): close/finalize the sink,
fire `onComplete`, deregister.  On the session state this sets the terminal
flag; it touches neither the sink log, the pending map, the cursor, nor the
byte count. -/
def completeReceiving (r : Receiver) : Receiver :=
  { r with completed := true }

/-- `processFileChunk(receiver, packet)` (lines 1097-1122): store the payload
in the pending map at its sequence number, add its length to the cumulative
byte count, drain the in-order run, then complete when the cumulative count
has reached the declared size (the check at line 1114 is `>=`). -/
def processFileChunk (r : Receiver) (pkt : Packet) : Receiver :=
  let r1 := { r with
    chunks := mapSet r.chunks pkt.chunkIndex pkt.data,
    receivedBytes := r.receivedBytes + pkt.data.length }
  let r2 := writeSequentialChunks r1
  if r2.fileSize ≤ r2.receivedBytes then completeReceiving r2 else r2

/-- `handleFileChunk(packet)` (lines 1073-1092) for a registered receiver:
while the sink is not ready, append the packet to the early-chunk staging
list; once ready, run the normal chunk-processing path. -/
def handleFileChunk (r : Receiver) (pkt : Packet) : Receiver :=
  if r.isReady then processFileChunk r pkt
  else { r with earlyChunks := r.earlyChunks ++ [pkt] }

/-- Chunk-processing path applied to a list of packets in arrival order. -/
def processList (r : Receiver) (pkts : List Packet) : Receiver :=
  pkts.foldl processFileChunk r

/-- `handleFileChunk` applied to a list of packets in arrival order. -/
def handleList (r : Receiver) (pkts : List Packet) : Receiver :=
  pkts.foldl handleFileChunk r

/-- The tail of `startReceiving` (lines 984-999) once `setupWriter` resolves:
flip the readiness flag, replay every staged early chunk through
`processFileChunk` in arrival order, then clear the staging list. -/
def becomeReady (r : Receiver) : Receiver :=
  let r1 := { r with isReady := true }
  let r2 := processList r1 r1.earlyChunks
  { r2 with earlyChunks := [] }

theorem mapGet?_mapSet_self (m : List (Nat × List Nat)) (k : Nat) (v : List Nat) :
    mapGet? (mapSet m k v) k = some v := by
  induction m with
  | nil => simp [mapSet, mapGet?]
  | cons p rest ih =>
    obtain ⟨k', v'⟩ := p
    by_cases h : k' = k
    · simp [mapSet, mapGet?, h]
    · simp [mapSet, mapGet?, h, ih]

theorem mapGet?_mapSet_ne (m : List (Nat × List Nat)) (k k' : Nat) (v : List Nat)
    (h : k' ≠ k) : mapGet? (mapSet m k v) k' = mapGet? m k' := by
  induction m with
  | nil => simp only [mapSet, mapGet?, if_neg (Ne.symm h)]
  | cons p rest ih =>
    obtain ⟨k₀, v₀⟩ := p
    simp only [mapSet]
    by_cases h0 : k₀ = k
    · subst h0
      simp only [if_pos rfl, mapGet?, if_neg (Ne.symm h)]
    · simp only [if_neg h0, mapGet?]
      by_cases h1 : k₀ = k'
      · simp only [if_pos h1]
      · simp only [if_neg h1, ih]

theorem mapGet?_mapDelete_self (m : List (Nat × List Nat)) (k : Nat) :
    mapGet? (mapDelete m k) k = none := by
  induction m with
  | nil => rfl
  | cons p rest ih =>
    obtain ⟨k', v'⟩ := p
    by_cases h : k' = k
    · simp [mapDelete, h, ih]
    · simp [mapDelete, mapGet?, h, ih]

theorem mapGet?_mapDelete_ne (m : List (Nat × List Nat)) (k k' : Nat) (h : k' ≠ k) :
    mapGet? (mapDelete m k) k' = mapGet? m k' := by
  induction m with
  | nil => rfl
  | cons p rest ih =>
    obtain ⟨k₀, v₀⟩ := p
    simp only [mapDelete]
    by_cases h0 : k₀ = k
    · subst h0
      rw [if_pos rfl, ih]
      simp only [mapGet?, if_neg (Ne.symm h)]
    · simp only [if_neg h0, mapGet?]
      by_cases h1 : k₀ = k'
      · simp only [if_pos h1]
      · simp only [if_neg h1, ih]

theorem drainFuel_preserves (fuel : Nat) (r : Receiver) :
    (drainFuel fuel r).fileSize = r.fileSize ∧
      (drainFuel fuel r).receivedBytes = r.receivedBytes ∧
      (drainFuel fuel r).isReady = r.isReady ∧
      (drainFuel fuel r).earlyChunks = r.earlyChunks ∧
      (drainFuel fuel r).completed = r.completed := by
  induction fuel generalizing r with
  | zero => exact ⟨rfl, rfl, rfl, rfl, rfl⟩
  | succ fuel ih =>
    cases h : mapGet? r.chunks r.expectedChunk with
    | some c =>
      simp only [drainFuel, h]
      exact ih _
    | none => simp only [drainFuel, h, And.intro rfl, and_self]

theorem writeSequentialChunks_preserves (r : Receiver) :
    (writeSequentialChunks r).fileSize = r.fileSize ∧
      (writeSequentialChunks r).receivedBytes = r.receivedBytes ∧
      (writeSequentialChunks r).isReady = r.isReady ∧
      (writeSequentialChunks r).earlyChunks = r.earlyChunks ∧
      (writeSequentialChunks r).completed = r.completed :=
  drainFuel_preserves r.chunks.length r

theorem processFileChunk_state (r : Receiver) (pkt : Packet) :
    (processFileChunk r pkt).receivedBytes = r.receivedBytes + pkt.data.length ∧
      (processFileChunk r pkt).fileSize = r.fileSize ∧
      (processFileChunk r pkt).isReady = r.isReady ∧
      (processFileChunk r pkt).earlyChunks = r.earlyChunks := by
  have h := writeSequentialChunks_preserves { r with
    chunks := mapSet r.chunks pkt.chunkIndex pkt.data,
    receivedBytes := r.receivedBytes + pkt.data.length }
  simp only [processFileChunk]
  split
  · exact ⟨h.2.1, h.1, h.2.2.1, h.2.2.2.1⟩
  · exact ⟨h.2.1, h.1, h.2.2.1, h.2.2.2.1⟩

theorem processFileChunk_completed (r : Receiver) (pkt : Packet) :
    ((processFileChunk r pkt).completed = true ↔
      (r.completed = true ∨ r.fileSize ≤ r.receivedBytes + pkt.data.length)) := by
  have h := writeSequentialChunks_preserves { r with
    chunks := mapSet r.chunks pkt.chunkIndex pkt.data,
    receivedBytes := r.receivedBytes + pkt.data.length }
  simp only [processFileChunk]
  split
  · rename_i hc
    rw [h.1, h.2.1] at hc
    simp only [completeReceiving, true_iff]
    exact Or.inr hc
  · rename_i hc
    rw [h.1, h.2.1] at hc
    rw [h.2.2.2.2]
    constructor
    · exact Or.inl
    · intro hor
      cases hor with
      | inl hh => exact hh
      | inr hh => exact absurd hh hc

/-- Claim C10: the receiver does not deduplicate: every run of the
chunk-processing path adds the payload length to the cumulative byte count
(the pending-map entry is merely overwritten), so a duplicate delivery adds
its length a second time and advances the byte-count-based completion
condition. -/
theorem c10_duplicate_chunks_counted (r : Receiver) (pkt : Packet) :
    (processFileChunk r pkt).receivedBytes = r.receivedBytes + pkt.data.length ∧
      mapGet? (mapSet r.chunks pkt.chunkIndex pkt.data) pkt.chunkIndex = some pkt.data ∧
      (processFileChunk (processFileChunk r pkt) pkt).receivedBytes
        = r.receivedBytes + 2 * pkt.data.length := by
  refine ⟨(processFileChunk_state r pkt).1, mapGet?_mapSet_self _ _ _, ?_⟩
  rw [(processFileChunk_state _ pkt).1, (processFileChunk_state r pkt).1]
  omega

/-- Claim C3 counterexample: with declared size 3, delivering the two-byte
chunk 0 twice completes the receiver (the check at line 1114 is `>=`) with a
cumulative byte count of 4, not equal to the declared size — refuting
completion "if and only if cumulative received bytes equal the declared
size". -/
theorem c3_completion_counterexample :
    (processList (initReceiver 3) [⟨0, [5, 5]⟩, ⟨0, [6, 6]⟩]).completed = true ∧
      (processList (initReceiver 3) [⟨0, [5, 5]⟩, ⟨0, [6, 6]⟩]).receivedBytes = 4 ∧
      (processList (initReceiver 3) [⟨0, [5, 5]⟩, ⟨0, [6, 6]⟩]).fileSize = 3 := by
  decide

theorem processList_stays_incomplete :
    ∀ (pkts : List Packet) (r : Receiver), r.completed = false →
      r.receivedBytes + (pkts.map (fun p => p.data.length)).sum < r.fileSize →
      (processList r pkts).completed = false ∧
        (processList r pkts).receivedBytes
          = r.receivedBytes + (pkts.map (fun p => p.data.length)).sum := by
  intro pkts
  induction pkts with
  | nil =>
    intro r hc _
    exact ⟨hc, by simp [processList]⟩
  | cons p rest ih =>
    intro r hc hlt
    simp only [List.map_cons, List.sum_cons] at hlt
    have hstep := processFileChunk_state r p
    have hcomp : (processFileChunk r p).completed = false := by
      rcases hcc : (processFileChunk r p).completed with _ | _
      · rfl
      · have := (processFileChunk_completed r p).1 hcc
        rcases this with hh | hh
        · rw [hc] at hh; exact absurd hh (by simp)
        · omega
    have hrec := ih (processFileChunk r p) hcomp (by
      rw [hstep.1, hstep.2.1]
      omega)
    have hfold : processList r (p :: rest) = processList (processFileChunk r p) rest := rfl
    rw [hfold, hrec.2, hstep.1]
    refine ⟨hrec.1, ?_⟩
    simp only [List.map_cons, List.sum_cons]
    omega

/-- Claim C3 as amended: after a run of the chunk-processing path the
completion flag is set exactly when it was already set or the new cumulative
byte count is at least (`>=`, so overshoot also completes) the declared file
size; and delivering chunks whose payload lengths sum to strictly less than
the declared size never completes the receiver. -/
theorem c3_completion_amended :
    (∀ (r : Receiver) (pkt : Packet),
      ((processFileChunk r pkt).completed = true ↔
        (r.completed = true ∨ r.fileSize ≤ r.receivedBytes + pkt.data.length))) ∧
      (∀ (fs : Nat) (pkts : List Packet),
        (pkts.map (fun p => p.data.length)).sum < fs →
          (processList (initReceiver fs) pkts).completed = false ∧
            (processList (initReceiver fs) pkts).receivedBytes
              = (pkts.map (fun p => p.data.length)).sum) := by
  refine ⟨processFileChunk_completed, ?_⟩
  intro fs pkts hlt
  have h := processList_stays_incomplete pkts (initReceiver fs) rfl (by
    simpa [initReceiver] using hlt)
  simpa [initReceiver] using h

theorem c3_completion_amended_witness :
    (([⟨0, [1]⟩] : List Packet).map (fun p => p.data.length)).sum < 5 ∧
      (processList (initReceiver 5) [⟨0, [1]⟩]).completed = false :=
  ⟨by decide, (c3_completion_amended.2 5 [⟨0, [1]⟩] (by decide)).1⟩

/-- The receiver-session invariant of the claim: one sink write per cursor
advance (every sequence below the cursor has been written), and the pending
map holds no sequence number strictly below the cursor. -/
def receiverInvariant (r : Receiver) : Prop :=
  r.sink.length = r.expectedChunk ∧
    ∀ t < r.expectedChunk, mapGet? r.chunks t = none

instance receiverInvariantDecidable (r : Receiver) : Decidable (receiverInvariant r) :=
  inferInstanceAs (Decidable (_ ∧ _))

/-- Claim C8 counterexample: from a fresh receiver of declared size 10,
chunk 0 is processed and written (cursor moves to 1), then a duplicate of
chunk 0 is processed: it is stored in the pending map and never evicted, so
the pending map now holds sequence number 0, strictly below the cursor —
refuting the claimed invariant for this reachable state. -/
theorem c8_invariant_counterexample :
    (processList (initReceiver 10) [⟨0, [1]⟩, ⟨0, [2]⟩]).expectedChunk = 1 ∧
      mapGet? (processList (initReceiver 10) [⟨0, [1]⟩, ⟨0, [2]⟩]).chunks 0 = some [2] ∧
      ¬ receiverInvariant (processList (initReceiver 10) [⟨0, [1]⟩, ⟨0, [2]⟩]) := by
  decide

theorem drainFuel_invariant (fuel : Nat) (r : Receiver)
    (hsink : r.sink.length = r.expectedChunk)
    (hlow : ∀ t < r.expectedChunk, mapGet? r.chunks t = none) :
    (drainFuel fuel r).sink.length = (drainFuel fuel r).expectedChunk ∧
      ∀ t < (drainFuel fuel r).expectedChunk, mapGet? (drainFuel fuel r).chunks t = none := by
  induction fuel generalizing r with
  | zero => exact ⟨hsink, hlow⟩
  | succ fuel ih =>
    cases h : mapGet? r.chunks r.expectedChunk with
    | none => simpa only [drainFuel, h] using ⟨hsink, hlow⟩
    | some c =>
      simp only [drainFuel, h]
      apply ih
      · simp [hsink]
      · intro t ht
        have ht' : t < r.expectedChunk + 1 := ht
        show mapGet? (mapDelete r.chunks r.expectedChunk) t = none
        by_cases he : t = r.expectedChunk
        · subst he
          exact mapGet?_mapDelete_self _ _
        · rw [mapGet?_mapDelete_ne _ _ _ he]
          exact hlow t (by omega)

/-- Claim C8 as amended: the invariant — every sequence number strictly below
the next-expected cursor has been written to the sink (one write per cursor
advance) and evicted from the pending map — holds for a fresh receiver and is
preserved by every chunk-processing operation whose chunk index is not below
the cursor (in particular under duplicate-free delivery); a duplicate of an
already-written chunk instead leaves a stale entry below the cursor. -/
theorem c8_cursor_invariant_amended :
    (∀ fs, receiverInvariant (initReceiver fs)) ∧
      (∀ (r : Receiver) (pkt : Packet), receiverInvariant r →
        r.expectedChunk ≤ pkt.chunkIndex →
        receiverInvariant (processFileChunk r pkt)) := by
  constructor
  · intro fs
    refine ⟨rfl, ?_⟩
    intro t ht
    have ht' : t < 0 := ht
    omega
  · intro r pkt hinv hseq
    have hdrain := drainFuel_invariant (mapSet r.chunks pkt.chunkIndex pkt.data).length
      { r with chunks := mapSet r.chunks pkt.chunkIndex pkt.data,
               receivedBytes := r.receivedBytes + pkt.data.length }
      hinv.1
      (by
        intro t ht
        have ht' : t < r.expectedChunk := ht
        show mapGet? (mapSet r.chunks pkt.chunkIndex pkt.data) t = none
        rw [mapGet?_mapSet_ne _ _ _ _ (by omega)]
        exact hinv.2 t ht')
    simp only [processFileChunk, writeSequentialChunks]
    split
    · exact hdrain
    · exact hdrain

theorem c8_cursor_invariant_amended_witness :
    receiverInvariant (initReceiver 4) ∧ (initReceiver 4).expectedChunk ≤ 0 ∧
      receiverInvariant (processFileChunk (initReceiver 4) ⟨0, [9]⟩) :=
  ⟨by decide, by decide,
    c8_cursor_invariant_amended.2 (initReceiver 4) ⟨0, [9]⟩ (by decide) (by decide)⟩

theorem length_mapDelete_lt (m : List (Nat × List Nat)) (k : Nat) (v : List Nat)
    (h : mapGet? m k = some v) : (mapDelete m k).length < m.length := by
  induction m with
  | nil => exact absurd h (by simp [mapGet?])
  | cons p rest ih =>
    obtain ⟨k₀, v₀⟩ := p
    by_cases h0 : k₀ = k
    · simp only [mapDelete, if_pos h0, List.length_cons]
      have : (mapDelete rest k).length ≤ rest.length := by
        clear h ih
        induction rest with
        | nil => exact Nat.le_refl _
        | cons q rest' ih' =>
          obtain ⟨k₁, v₁⟩ := q
          by_cases h1 : k₁ = k
          · simp only [mapDelete, if_pos h1, List.length_cons]
            omega
          · simp only [mapDelete, if_neg h1, List.length_cons]
            omega
      omega
    · simp only [mapGet?, if_neg h0] at h
      simp only [mapDelete, if_neg h0, List.length_cons]
      exact Nat.succ_lt_succ (ih h)

/-- The receiver-session invariant driving the sequential-delivery proof,
relative to the payload assignment `p` and the list `D` of sequence numbers
already delivered: the sink log is exactly the payloads `0 .. cursor-1` in
order, the pending map holds exactly the delivered sequences at or beyond the
cursor, every sequence below the cursor was delivered, and the cursor itself
is undelivered (the drain is at rest). -/
def seqInvariant (p : Nat → List Nat) (D : List Nat) (r : Receiver) : Prop :=
  r.sink = (List.range r.expectedChunk).map p ∧
    (∀ s, mapGet? r.chunks s =
      if s ∈ D ∧ r.expectedChunk ≤ s then some (p s) else none) ∧
    (∀ i < r.expectedChunk, i ∈ D) ∧
    r.expectedChunk ∉ D

theorem drainFuel_seqInvariant (p : Nat → List Nat) (D : List Nat) :
    ∀ (fuel : Nat) (r : Receiver), r.chunks.length ≤ fuel →
      r.sink = (List.range r.expectedChunk).map p →
      (∀ s, mapGet? r.chunks s =
        if s ∈ D ∧ r.expectedChunk ≤ s then some (p s) else none) →
      (drainFuel fuel r).sink = (List.range (drainFuel fuel r).expectedChunk).map p ∧
        (∀ s, mapGet? (drainFuel fuel r).chunks s =
          if s ∈ D ∧ (drainFuel fuel r).expectedChunk ≤ s then some (p s) else none) ∧
        r.expectedChunk ≤ (drainFuel fuel r).expectedChunk ∧
        (∀ t, r.expectedChunk ≤ t → t < (drainFuel fuel r).expectedChunk → t ∈ D) ∧
        (drainFuel fuel r).expectedChunk ∉ D := by
  intro fuel
  induction fuel with
  | zero =>
    intro r hfuel hsink hchar
    have hempty : r.chunks = [] := List.length_eq_zero.mp (by omega)
    have hcur : r.expectedChunk ∉ D := by
      have := hchar r.expectedChunk
      rw [hempty] at this
      simp only [mapGet?] at this
      by_contra hmem
      rw [if_pos ⟨hmem, Nat.le_refl _⟩] at this
      exact Option.noConfusion this
    exact ⟨hsink, hchar, Nat.le_refl _, fun t h1 h2 => absurd (Nat.lt_of_le_of_lt h1 h2)
      (Nat.lt_irrefl _), hcur⟩
  | succ fuel ih =>
    intro r hfuel hsink hchar
    cases h : mapGet? r.chunks r.expectedChunk with
    | none =>
      have hcur : r.expectedChunk ∉ D := by
        have := hchar r.expectedChunk
        rw [h] at this
        by_contra hmem
        rw [if_pos ⟨hmem, Nat.le_refl _⟩] at this
        exact Option.noConfusion this
      simp only [drainFuel, h]
      exact ⟨hsink, hchar, Nat.le_refl _, fun t h1 h2 => absurd (Nat.lt_of_le_of_lt h1 h2)
        (Nat.lt_irrefl _), hcur⟩
    | some c =>
      have hin : r.expectedChunk ∈ D ∧ c = p r.expectedChunk := by
        have hthis := hchar r.expectedChunk
        rw [h] at hthis
        by_cases hmem : r.expectedChunk ∈ D
        · rw [if_pos ⟨hmem, Nat.le_refl _⟩] at hthis
          injection hthis with hval
          exact ⟨hmem, hval⟩
        · rw [if_neg (fun hh => hmem hh.1)] at hthis
          exact Option.noConfusion hthis
      simp only [drainFuel, h]
      have hrec := ih { r with
          sink := r.sink ++ [c],
          chunks := mapDelete r.chunks r.expectedChunk,
          expectedChunk := r.expectedChunk + 1 }
        (by
          have := length_mapDelete_lt r.chunks r.expectedChunk c h
          show (mapDelete r.chunks r.expectedChunk).length ≤ fuel
          omega)
        (by
          show r.sink ++ [c] = (List.range (r.expectedChunk + 1)).map p
          rw [hsink, hin.2, List.range_succ, List.map_append, List.map_singleton])
        (by
          intro s
          show mapGet? (mapDelete r.chunks r.expectedChunk) s =
            if s ∈ D ∧ r.expectedChunk + 1 ≤ s then some (p s) else none
          by_cases hse : s = r.expectedChunk
          · subst hse
            rw [mapGet?_mapDelete_self, if_neg (fun hh => by omega)]
          · rw [mapGet?_mapDelete_ne _ _ _ hse, hchar s]
            have hiff : (s ∈ D ∧ r.expectedChunk ≤ s) ↔ (s ∈ D ∧ r.expectedChunk + 1 ≤ s) := by
              constructor
              · intro hh
                exact ⟨hh.1, by omega⟩
              · intro hh
                exact ⟨hh.1, by omega⟩
            rw [if_congr hiff rfl rfl])
      have hproj : ({ r with
          sink := r.sink ++ [c],
          chunks := mapDelete r.chunks r.expectedChunk,
          expectedChunk := r.expectedChunk + 1 } : Receiver).expectedChunk
            = r.expectedChunk + 1 := rfl
      rw [hproj] at hrec
      refine ⟨hrec.1, hrec.2.1, ?_, ?_, hrec.2.2.2.2⟩
      · have := hrec.2.2.1
        omega
      · intro t h1 h2
        by_cases hte : t = r.expectedChunk
        · subst hte
          exact hin.1
        · exact hrec.2.2.2.1 t (by omega) h2

theorem processFileChunk_seqInvariant (p : Nat → List Nat) (D : List Nat) (r : Receiver)
    (s : Nat) (hinv : seqInvariant p D r) (hnew : s ∉ D) :
    seqInvariant p (s :: D) (processFileChunk r ⟨s, p s⟩) := by
  obtain ⟨hsink, hchar, hlow, hcur⟩ := hinv
  have hes : r.expectedChunk ≤ s := by
    by_contra hlt
    exact hnew (hlow s (by omega))
  have hchar1 : ∀ t, mapGet? (mapSet r.chunks s (p s)) t =
      if t ∈ s :: D ∧ r.expectedChunk ≤ t then some (p t) else none := by
    intro t
    by_cases hts : t = s
    · subst hts
      rw [mapGet?_mapSet_self, if_pos ⟨List.mem_cons_self t D, hes⟩]
    · rw [mapGet?_mapSet_ne _ _ _ _ hts, hchar t]
      have hiff : (t ∈ D ∧ r.expectedChunk ≤ t) ↔ (t ∈ s :: D ∧ r.expectedChunk ≤ t) := by
        simp [List.mem_cons, hts]
      rw [if_congr hiff rfl rfl]
  have hdrain := drainFuel_seqInvariant p (s :: D)
    (mapSet r.chunks s (p s)).length
    { r with chunks := mapSet r.chunks s (p s),
             receivedBytes := r.receivedBytes + (p s).length }
    (Nat.le_refl _) hsink hchar1
  have hproj : ({ r with
      chunks := mapSet r.chunks s (p s),
      receivedBytes := r.receivedBytes + (p s).length } : Receiver).expectedChunk
        = r.expectedChunk := rfl
  rw [hproj] at hdrain
  have hresult : seqInvariant p (s :: D) (writeSequentialChunks { r with
      chunks := mapSet r.chunks s (p s),
      receivedBytes := r.receivedBytes + (p s).length }) := by
    refine ⟨hdrain.1, hdrain.2.1, ?_, hdrain.2.2.2.2⟩
    intro i hi
    by_cases hie : i < r.expectedChunk
    · exact List.mem_cons_of_mem s (hlow i hie)
    · exact hdrain.2.2.2.1 i (by omega) hi
  show seqInvariant p (s :: D) (processFileChunk r ⟨s, p s⟩)
  simp only [processFileChunk]
  split
  · exact hresult
  · exact hresult

theorem processList_seqInvariant (p : Nat → List Nat) :
    ∀ (order : List Nat) (D : List Nat) (r : Receiver),
      seqInvariant p D r → (∀ x ∈ order, x ∉ D) → order.Nodup →
      ∃ E, seqInvariant p E (processList r (order.map (fun s => ⟨s, p s⟩))) ∧
        (∀ x, x ∈ E ↔ x ∈ order ∨ x ∈ D) := by
  intro order
  induction order with
  | nil =>
    intro D r hinv _ _
    exact ⟨D, hinv, by simp⟩
  | cons s rest ih =>
    intro D r hinv hfresh hnodup
    have hstep := processFileChunk_seqInvariant p D r s hinv
      (hfresh s (List.mem_cons_self s rest))
    have hrec := ih (s :: D) (processFileChunk r ⟨s, p s⟩) hstep
      (by
        intro x hx
        rw [List.mem_cons]
        rintro (hxs | hxD)
        · subst hxs
          exact (List.nodup_cons.mp hnodup).1 hx
        · exact hfresh x (List.mem_cons_of_mem s hx) hxD)
      (List.nodup_cons.mp hnodup).2
    obtain ⟨E, hE, hmem⟩ := hrec
    refine ⟨E, hE, ?_⟩
    intro x
    rw [hmem x]
    simp [List.mem_cons]
    tauto

theorem seqInvariant_init (p : Nat → List Nat) (fs : Nat) :
    seqInvariant p [] (initReceiver fs) := by
  refine ⟨rfl, ?_, ?_, by simp⟩
  · intro s
    simp [initReceiver, mapGet?]
  · intro i hi
    have : i < 0 := hi
    omega

/-- Claim C1: for a receiver expecting sequence numbers `0 .. N-1`, processing
the `N` chunks through the chunk-processing path in an arbitrary arrival
order writes to the sink exactly the original payloads in sequence order
`0 .. N-1`; moreover after every arrival prefix the sink log is exactly the
payloads `0 .. cursor-1` in order, so the chunk of sequence `s+1` is never
written before the chunk of sequence `s`. -/
theorem c1_sequential_delivery (N fs : Nat) (p : Nat → List Nat) (order : List Nat)
    (hperm : order.Perm (List.range N)) :
    (processList (initReceiver fs) (order.map (fun s => ⟨s, p s⟩))).sink
        = (List.range N).map p ∧
      ∀ pre post, order = pre ++ post →
        (processList (initReceiver fs) (pre.map (fun s => ⟨s, p s⟩))).sink
          = (List.range (processList (initReceiver fs)
              (pre.map (fun s => ⟨s, p s⟩))).expectedChunk).map p := by
  have hnodup : order.Nodup := hperm.nodup_iff.mpr (List.nodup_range N)
  constructor
  · obtain ⟨E, hE, hmem⟩ := processList_seqInvariant p order [] (initReceiver fs)
      (seqInvariant_init p fs) (by simp) hnodup
    obtain ⟨hsink, _, hlow, hcur⟩ := hE
    have hmemN : ∀ x, x ∈ E ↔ x < N := by
      intro x
      rw [hmem x, hperm.mem_iff]
      simp [List.mem_range]
    have hfinal : (processList (initReceiver fs)
        (order.map (fun s => ⟨s, p s⟩))).expectedChunk = N := by
      have hle : (processList (initReceiver fs)
          (order.map (fun s => ⟨s, p s⟩))).expectedChunk ≤ N := by
        by_contra hgt
        have hNin : N ∈ E := hlow N (by omega)
        have := (hmemN N).mp hNin
        omega
      have hge : N ≤ (processList (initReceiver fs)
          (order.map (fun s => ⟨s, p s⟩))).expectedChunk := by
        by_contra hlt
        exact hcur ((hmemN _).mpr (by omega))
      omega
    rw [hsink, hfinal]
  · intro pre post hsplit
    have hpre : pre.Nodup := by
      rw [hsplit] at hnodup
      exact hnodup.of_append_left
    obtain ⟨E, hE, _⟩ := processList_seqInvariant p pre [] (initReceiver fs)
      (seqInvariant_init p fs) (by simp) hpre
    exact hE.1

theorem c1_sequential_delivery_witness :
    ([2, 0, 1] : List Nat).Perm (List.range 3) ∧
      (processList (initReceiver 6)
          ([2, 0, 1].map (fun s => ⟨s, [s, s]⟩))).sink
        = (List.range 3).map (fun s => [s, s]) :=
  ⟨by decide, (c1_sequential_delivery 3 6 (fun s => [s, s]) [2, 0, 1] (by decide)).1⟩

theorem drainFuel_earlyChunks_frame (fuel : Nat) :
    ∀ (r : Receiver) (x : List Packet),
      drainFuel fuel { r with earlyChunks := x }
        = { drainFuel fuel r with earlyChunks := x } := by
  induction fuel with
  | zero =>
    intro r x
    rfl
  | succ fuel ih =>
    intro r x
    cases h : mapGet? r.chunks r.expectedChunk with
    | none => simp only [drainFuel, h]
    | some c =>
      simp only [drainFuel, h]
      exact ih { r with
        sink := r.sink ++ [c],
        chunks := mapDelete r.chunks r.expectedChunk,
        expectedChunk := r.expectedChunk + 1 } x

theorem receiver_ext (a b : Receiver) (h1 : a.fileSize = b.fileSize)
    (h2 : a.receivedBytes = b.receivedBytes) (h3 : a.chunks = b.chunks)
    (h4 : a.expectedChunk = b.expectedChunk) (h5 : a.sink = b.sink)
    (h6 : a.isReady = b.isReady) (h7 : a.earlyChunks = b.earlyChunks)
    (h8 : a.completed = b.completed) : a = b := by
  cases a
  cases b
  simp_all

theorem bool_eq_of_iff (a b : Bool) (h : a = true ↔ b = true) : a = b := by
  cases a <;> cases b <;> simp_all

theorem processFileChunk_chunks (s : Receiver) (pkt : Packet) :
    (processFileChunk s pkt).chunks = (writeSequentialChunks { s with
      chunks := mapSet s.chunks pkt.chunkIndex pkt.data,
      receivedBytes := s.receivedBytes + pkt.data.length }).chunks := by
  simp only [processFileChunk]
  split
  · rfl
  · rfl

theorem processFileChunk_sink (s : Receiver) (pkt : Packet) :
    (processFileChunk s pkt).sink = (writeSequentialChunks { s with
      chunks := mapSet s.chunks pkt.chunkIndex pkt.data,
      receivedBytes := s.receivedBytes + pkt.data.length }).sink := by
  simp only [processFileChunk]
  split
  · rfl
  · rfl

theorem processFileChunk_expectedChunk (s : Receiver) (pkt : Packet) :
    (processFileChunk s pkt).expectedChunk = (writeSequentialChunks { s with
      chunks := mapSet s.chunks pkt.chunkIndex pkt.data,
      receivedBytes := s.receivedBytes + pkt.data.length }).expectedChunk := by
  simp only [processFileChunk]
  split
  · rfl
  · rfl

theorem processFileChunk_earlyChunks_frame (r : Receiver) (x : List Packet) (pkt : Packet) :
    processFileChunk { r with earlyChunks := x } pkt
      = { processFileChunk r pkt with earlyChunks := x } := by
  have hframe : drainFuel (mapSet r.chunks pkt.chunkIndex pkt.data).length
      { r with chunks := mapSet r.chunks pkt.chunkIndex pkt.data,
               receivedBytes := r.receivedBytes + pkt.data.length,
               earlyChunks := x }
      = { drainFuel (mapSet r.chunks pkt.chunkIndex pkt.data).length
            { r with chunks := mapSet r.chunks pkt.chunkIndex pkt.data,
                     receivedBytes := r.receivedBytes + pkt.data.length }
          with earlyChunks := x } :=
    drainFuel_earlyChunks_frame (mapSet r.chunks pkt.chunkIndex pkt.data).length
      { r with chunks := mapSet r.chunks pkt.chunkIndex pkt.data,
               receivedBytes := r.receivedBytes + pkt.data.length } x
  have hchunks0 := congrArg Receiver.chunks hframe
  have hsink0 := congrArg Receiver.sink hframe
  have hexp0 := congrArg Receiver.expectedChunk hframe
  have hchunks : (drainFuel (mapSet r.chunks pkt.chunkIndex pkt.data).length
      { r with chunks := mapSet r.chunks pkt.chunkIndex pkt.data,
               receivedBytes := r.receivedBytes + pkt.data.length,
               earlyChunks := x }).chunks
      = (drainFuel (mapSet r.chunks pkt.chunkIndex pkt.data).length
          { r with chunks := mapSet r.chunks pkt.chunkIndex pkt.data,
                   receivedBytes := r.receivedBytes + pkt.data.length }).chunks := hchunks0
  have hsink : (drainFuel (mapSet r.chunks pkt.chunkIndex pkt.data).length
      { r with chunks := mapSet r.chunks pkt.chunkIndex pkt.data,
               receivedBytes := r.receivedBytes + pkt.data.length,
               earlyChunks := x }).sink
      = (drainFuel (mapSet r.chunks pkt.chunkIndex pkt.data).length
          { r with chunks := mapSet r.chunks pkt.chunkIndex pkt.data,
                   receivedBytes := r.receivedBytes + pkt.data.length }).sink := hsink0
  have hexp : (drainFuel (mapSet r.chunks pkt.chunkIndex pkt.data).length
      { r with chunks := mapSet r.chunks pkt.chunkIndex pkt.data,
               receivedBytes := r.receivedBytes + pkt.data.length,
               earlyChunks := x }).expectedChunk
      = (drainFuel (mapSet r.chunks pkt.chunkIndex pkt.data).length
          { r with chunks := mapSet r.chunks pkt.chunkIndex pkt.data,
                   receivedBytes := r.receivedBytes + pkt.data.length }).expectedChunk := hexp0
  have hstateL := processFileChunk_state { r with earlyChunks := x } pkt
  have hstateR := processFileChunk_state r pkt
  refine receiver_ext _ _ ?_ ?_ ?_ ?_ ?_ ?_ ?_ ?_
  · show (processFileChunk { r with earlyChunks := x } pkt).fileSize
      = (processFileChunk r pkt).fileSize
    rw [hstateL.2.1, hstateR.2.1]
  · show (processFileChunk { r with earlyChunks := x } pkt).receivedBytes
      = (processFileChunk r pkt).receivedBytes
    rw [hstateL.1, hstateR.1]
  · show (processFileChunk { r with earlyChunks := x } pkt).chunks
      = (processFileChunk r pkt).chunks
    rw [processFileChunk_chunks { r with earlyChunks := x } pkt,
      processFileChunk_chunks r pkt]
    exact hchunks
  · show (processFileChunk { r with earlyChunks := x } pkt).expectedChunk
      = (processFileChunk r pkt).expectedChunk
    rw [processFileChunk_expectedChunk { r with earlyChunks := x } pkt,
      processFileChunk_expectedChunk r pkt]
    exact hexp
  · show (processFileChunk { r with earlyChunks := x } pkt).sink
      = (processFileChunk r pkt).sink
    rw [processFileChunk_sink { r with earlyChunks := x } pkt,
      processFileChunk_sink r pkt]
    exact hsink
  · show (processFileChunk { r with earlyChunks := x } pkt).isReady
      = (processFileChunk r pkt).isReady
    rw [hstateL.2.2.1, hstateR.2.2.1]
  · show (processFileChunk { r with earlyChunks := x } pkt).earlyChunks = x
    rw [hstateL.2.2.2]
  · show (processFileChunk { r with earlyChunks := x } pkt).completed
      = (processFileChunk r pkt).completed
    refine bool_eq_of_iff _ _ ?_
    rw [processFileChunk_completed { r with earlyChunks := x } pkt,
      processFileChunk_completed r pkt]

theorem processList_earlyChunks_frame (pkts : List Packet) :
    ∀ (r : Receiver) (x : List Packet),
      processList { r with earlyChunks := x } pkts
        = { processList r pkts with earlyChunks := x } := by
  induction pkts with
  | nil =>
    intro r x
    rfl
  | cons p rest ih =>
    intro r x
    show processList (processFileChunk { r with earlyChunks := x } p) rest = _
    rw [processFileChunk_earlyChunks_frame]
    exact ih (processFileChunk r p) x

theorem processList_isReady (pkts : List Packet) :
    ∀ (r : Receiver), (processList r pkts).isReady = r.isReady := by
  induction pkts with
  | nil => intro r; rfl
  | cons p rest ih =>
    intro r
    show (processList (processFileChunk r p) rest).isReady = r.isReady
    rw [ih, (processFileChunk_state r p).2.2.1]

theorem processList_earlyChunks (pkts : List Packet) :
    ∀ (r : Receiver), (processList r pkts).earlyChunks = r.earlyChunks := by
  induction pkts with
  | nil => intro r; rfl
  | cons p rest ih =>
    intro r
    show (processList (processFileChunk r p) rest).earlyChunks = r.earlyChunks
    rw [ih, (processFileChunk_state r p).2.2.2]

theorem handleList_ready (pkts : List Packet) :
    ∀ (r : Receiver), r.isReady = true → handleList r pkts = processList r pkts := by
  induction pkts with
  | nil => intro r _; rfl
  | cons p rest ih =>
    intro r hr
    show handleList (handleFileChunk r p) rest = processList (processFileChunk r p) rest
    rw [handleFileChunk, if_pos hr]
    exact ih _ (by rw [(processFileChunk_state r p).2.2.1, hr])

theorem handleList_notReady (pkts : List Packet) :
    ∀ (r : Receiver), r.isReady = false →
      handleList r pkts = { r with earlyChunks := r.earlyChunks ++ pkts } := by
  induction pkts with
  | nil =>
    intro r _
    show r = { r with earlyChunks := r.earlyChunks ++ [] }
    rw [List.append_nil]
  | cons p rest ih =>
    intro r hr
    show handleList (handleFileChunk r p) rest = _
    rw [handleFileChunk, if_neg (by rw [hr]; exact Bool.false_ne_true)]
    rw [ih { r with earlyChunks := r.earlyChunks ++ [p] } (by exact hr)]
    rw [show ({ r with earlyChunks := r.earlyChunks ++ [p] } : Receiver).earlyChunks
      = r.earlyChunks ++ [p] from rfl]
    rw [List.append_assoc, List.singleton_append]

theorem processList_append (r : Receiver) (a b : List Packet) :
    processList r (a ++ b) = processList (processList r a) b :=
  List.foldl_append processFileChunk r a b

/-- Claim C5: every chunk delivered to a receiver whose readiness flag is
false is appended to the early-chunk staging list (none is dropped and none
errors), and once the sink becomes ready the staged chunks are replayed
through the normal chunk-processing path in arrival order before any live
chunk, so the resulting session state — in particular the sink content — is
identical to the run in which every chunk arrived after readiness, in the
same overall order. -/
theorem c5_early_chunk_buffering (r : Receiver) (early late : List Packet)
    (hready : r.isReady = false) (hearly : r.earlyChunks = []) :
    (handleList r early).earlyChunks = early ∧
      handleList (becomeReady (handleList r early)) late
        = processList { r with isReady := true } (early ++ late) := by
  have hstage : handleList r early = { r with earlyChunks := early } := by
    rw [handleList_notReady early r hready, hearly, List.nil_append]
  constructor
  · rw [hstage]
  · rw [hstage]
    have hbr : becomeReady { r with earlyChunks := early }
        = processList { r with isReady := true } early := by
      have h1 : becomeReady { r with earlyChunks := early }
          = { processList { r with isReady := true, earlyChunks := early } early
              with earlyChunks := [] } := rfl
      have h2 : processList { r with isReady := true, earlyChunks := early } early
          = { processList { r with isReady := true } early with earlyChunks := early } :=
        processList_earlyChunks_frame early { r with isReady := true } early
      rw [h1, h2]
      refine receiver_ext _ _ rfl rfl rfl rfl rfl rfl ?_ rfl
      rw [processList_earlyChunks early { r with isReady := true }]
      exact hearly.symm
    have hready2 : (processList { r with isReady := true } early).isReady = true := by
      rw [processList_isReady early { r with isReady := true }]
    rw [hbr, handleList_ready late (processList { r with isReady := true } early) hready2,
      processList_append { r with isReady := true } early late]

theorem c5_early_chunk_buffering_witness :
    (initReceiver 4).isReady = false ∧ (initReceiver 4).earlyChunks = [] ∧
      handleList (becomeReady (handleList (initReceiver 4) [⟨1, [7, 7]⟩]))
          [⟨0, [8, 8]⟩]
        = processList { initReceiver 4 with isReady := true }
            ([⟨1, [7, 7]⟩] ++ [⟨0, [8, 8]⟩]) :=
  ⟨rfl, rfl,
    (c5_early_chunk_buffering (initReceiver 4) [⟨1, [7, 7]⟩] [⟨0, [8, 8]⟩] rfl rfl).2⟩

/-- Outcome of the per-chunk retry loop of `sendWithStream` (lines 800-865):
`sent rc ds` — the chunk was transmitted, the retry counter was reset to `rc`
(always `0`, line 837) and `ds` lists the backoff delays (in ms) waited
between consecutive attempts; `exhausted ds` — the `Max retries exceeded`
error was thrown (line 857), which the outer handler turns into `onError`
(sender `Failed`); `notSent` — the loop exited without either (empty retry
budget, or the outcome oracle ran out). -/
inductive RetryOutcome where
  | sent (retryCount : Nat) (delays : List Nat)
  | exhausted (delays : List Nat)
  | notSent
deriving Repr, DecidableEq

/-- The retry loop `while (!sent && retryCount < maxRetries)` of
`sendWithStream` (lines 802-865), driven by an oracle list giving the outcome
of each `dataChannel.send` attempt (`true` = success, `false` = a transient
non-connection-closed send failure; channel open and buffer available
throughout).  On success the counter resets to zero (line 837); on failure
the counter increments and, once it reaches `maxRetries`, the loop throws
(line 857); otherwise it waits `min(1000, 100 * 2^(retryCount-1))` ms
(line 861) and retries. -/
def retryLoop (maxRetries : Nat) : Nat → List Bool → RetryOutcome
  | _, [] => .notSent
  | retryCount, ok :: rest =>
    if maxRetries ≤ retryCount then .notSent
    else if ok then .sent 0 []
    else if maxRetries ≤ retryCount + 1 then .exhausted []
    else
      match retryLoop maxRetries (retryCount + 1) rest with
      | .sent n ds => .sent n (min 1000 (100 * 2 ^ retryCount) :: ds)
      | .exhausted ds => .exhausted (min 1000 (100 * 2 ^ retryCount) :: ds)
      | .notSent => .notSent

theorem retryLoop_cons (m rc : Nat) (ok : Bool) (rest : List Bool) :
    retryLoop m rc (ok :: rest)
      = if m ≤ rc then .notSent
        else if ok then .sent 0 []
        else if m ≤ rc + 1 then .exhausted []
        else
          match retryLoop m (rc + 1) rest with
          | .sent n ds => .sent n (min 1000 (100 * 2 ^ rc) :: ds)
          | .exhausted ds => .exhausted (min 1000 (100 * 2 ^ rc) :: ds)
          | .notSent => .notSent := rfl

theorem delays_range_shift (j n : Nat) :
    (List.range (n + 1)).map (fun k => min 1000 (100 * 2 ^ (j + k)))
      = min 1000 (100 * 2 ^ j)
        :: (List.range n).map (fun k => min 1000 (100 * 2 ^ (j + 1 + k))) := by
  rw [List.range_succ_eq_map, List.map_cons, List.map_map]
  congr 1
  apply List.map_congr_left
  intro k _
  have h : j + 1 + k = j + k.succ := by omega
  rw [Function.comp_apply, h]

theorem retryLoop_exhausted (m : Nat) :
    ∀ (n j : Nat), j + n = m → 1 ≤ n →
      retryLoop m j (List.replicate n false)
        = .exhausted ((List.range (n - 1)).map (fun k => min 1000 (100 * 2 ^ (j + k)))) := by
  intro n
  induction n with
  | zero => intro j _ h1; omega
  | succ n ih =>
    intro j hm _
    cases n with
    | zero =>
      have hstep : List.replicate 1 false = [false] := rfl
      rw [hstep, retryLoop_cons]
      rw [if_neg (by omega), if_neg (by simp), if_pos (by omega)]
      simp
    | succ n' =>
      have hrec := ih (j + 1) (by omega) (by omega)
      have hstep : List.replicate (n' + 1 + 1) false
          = false :: List.replicate (n' + 1) false := rfl
      have hlist := delays_range_shift j (n' + 1 - 1)
      rw [hstep, retryLoop_cons]
      rw [if_neg (by omega), if_neg (by simp), if_neg (by omega), hrec,
        show n' + 1 + 1 - 1 = (n' + 1 - 1) + 1 from by omega, hlist]

theorem retryLoop_sent (m : Nat) :
    ∀ (n j : Nat), j + n < m →
      retryLoop m j (List.replicate n false ++ [true])
        = .sent 0 ((List.range n).map (fun k => min 1000 (100 * 2 ^ (j + k)))) := by
  intro n
  induction n with
  | zero =>
    intro j hm
    have hstep : List.replicate 0 false ++ [true] = [true] := rfl
    rw [hstep, retryLoop_cons]
    rw [if_neg (by omega)]
    simp
  | succ n ih =>
    intro j hm
    have hrec := ih (j + 1) (by omega)
    have hstep : List.replicate (n + 1) false ++ [true]
        = false :: (List.replicate n false ++ [true]) := rfl
    have hlist := delays_range_shift j n
    rw [hstep, retryLoop_cons]
    rw [if_neg (by omega), if_neg (by simp), if_neg (by omega), hrec, hlist]


/-- Claim C6: with retry budget `m ≥ 1`, a chunk whose transmission fails `m`
consecutive times makes the loop throw the retries-exhausted error (sender
`Failed`, `onError` fired); `m - 1` failures followed by one success
transmits the chunk with the retry counter reset to zero; and the backoff
delays waited between consecutive attempts are `min(1000, 100·2^k)` for
`k = 0, 1, ...` — exponentially growing and bounded above by 1000 ms. -/
theorem c6_retry_budget (m : Nat) (hm : 1 ≤ m) :
    retryLoop m 0 (List.replicate m false)
        = .exhausted ((List.range (m - 1)).map (fun k => min 1000 (100 * 2 ^ k))) ∧
      retryLoop m 0 (List.replicate (m - 1) false ++ [true])
        = .sent 0 ((List.range (m - 1)).map (fun k => min 1000 (100 * 2 ^ k))) ∧
      ∀ d ∈ (List.range (m - 1)).map (fun k => min 1000 (100 * 2 ^ k)), d ≤ 1000 := by
  have hmap : ∀ (n : Nat), (List.range n).map (fun k => min 1000 (100 * 2 ^ (0 + k)))
      = (List.range n).map (fun k => min 1000 (100 * 2 ^ k)) := by
    intro n
    apply List.map_congr_left
    intro k _
    rw [Nat.zero_add]
  refine ⟨?_, ?_, ?_⟩
  · rw [retryLoop_exhausted m m 0 (by omega) hm, hmap]
  · rw [retryLoop_sent m (m - 1) 0 (by omega), hmap]
  · intro d hd
    obtain ⟨k, _, hk⟩ := List.mem_map.mp hd
    omega

theorem c6_retry_budget_witness :
    1 ≤ 8 ∧
      retryLoop 8 0 (List.replicate 8 false)
        = .exhausted ((List.range 7).map (fun k => min 1000 (100 * 2 ^ k))) :=
  ⟨by decide, (c6_retry_budget 8 (by decide)).1⟩

/-- One observation of the data channel made by a `waitForBuffer` poll:
`readyState === 'open'` as a flag, and `bufferedAmount`. -/
structure ChannelObs where
  isOpen : Bool
  bufferedAmount : Nat
deriving Repr, DecidableEq

/-- Outcome of `waitForBuffer`: the promise resolves, rejects with
`Connection closed` (line 1187), rejects with `Buffer wait timeout`
(line 1193), or the observation trace ran out with the wait still pending. -/
inductive WaitResult where
  | resolved
  | closedError
  | timeoutError
  | pending
deriving Repr, DecidableEq

/-- `waitForBuffer(dataChannel)` (lines 1180-1216) over a trace of channel
observations, one consumed per `check()` call: reject `Connection closed`
when the channel is not open; reject `Buffer wait timeout` when
`attempts > maxAttempts`; resolve when `bufferedAmount` is strictly below the
threshold `maxBuffered / 4` (line 1198); otherwise increment `attempts` and
poll again.  In the source `maxAttempts` is the literal `500` and
`maxBuffered` is the mutable `this.config.maxBuffered`. -/
def waitForBuffer (maxBuffered maxAttempts : Nat) : Nat → List ChannelObs → WaitResult
  | _, [] => .pending
  | attempts, obs :: rest =>
    if obs.isOpen = false then .closedError
    else if maxAttempts < attempts then .timeoutError
    else if obs.bufferedAmount < maxBuffered / 4 then .resolved
    else waitForBuffer maxBuffered maxAttempts (attempts + 1) rest

theorem waitForBuffer_resolves_last (B m : Nat) :
    ∀ (t : List ChannelObs) (a : Nat) (lastObs : ChannelObs),
      (∀ obs ∈ t, obs.isOpen = true ∧ B / 4 ≤ obs.bufferedAmount) →
      a + t.length ≤ m →
      lastObs.isOpen = true → lastObs.bufferedAmount < B / 4 →
      waitForBuffer B m a (t ++ [lastObs]) = .resolved := by
  intro t
  induction t with
  | nil =>
    intro a lastObs _ hlen hopen hlow
    simp only [List.nil_append, waitForBuffer]
    rw [if_neg (by simp [hopen]), if_neg (by simp at hlen; omega), if_pos hlow]
  | cons obs rest ih =>
    intro a lastObs hobs hlen hopen hlow
    have hhead := hobs obs (List.mem_cons_self obs rest)
    simp only [List.length_cons] at hlen
    simp only [List.cons_append, waitForBuffer]
    rw [if_neg (by simp [hhead.1]), if_neg (by omega), if_neg (by
      have := hhead.2
      omega)]
    exact ih (a + 1) lastObs (fun o ho => hobs o (List.mem_cons_of_mem obs ho))
      (by omega) hopen hlow

/-- Claim C7 counterexample: with the source constants (`maxBuffered` 8192,
`maxAttempts` 500), a run in which the first 500 polls all see the channel
open with `bufferedAmount` 8192 — never below the threshold 2048 — does not
fail: the 501st poll (the check `attempts > maxAttempts` is strict) can still
observe a low buffer and resolve.  This refutes failure with
`BufferTimeoutError` after `maxAttempts` threshold-missing polls. -/
theorem c7_flow_control_counterexample :
    waitForBuffer 8192 500 0 (List.replicate 500 ⟨true, 8192⟩ ++ [⟨true, 0⟩])
        = .resolved ∧
      WaitResult.resolved ≠ WaitResult.timeoutError :=
  ⟨waitForBuffer_resolves_last 8192 500 (List.replicate 500 ⟨true, 8192⟩) 0 ⟨true, 0⟩
      (by
        intro obs hobs
        rw [List.eq_of_mem_replicate hobs]
        exact ⟨rfl, by decide⟩)
      (by rw [List.length_replicate]) rfl (by decide),
    by decide⟩

theorem waitForBuffer_resolved_below (B m : Nat) :
    ∀ (t : List ChannelObs) (a : Nat), waitForBuffer B m a t = .resolved →
      ∃ obs ∈ t, obs.isOpen = true ∧ obs.bufferedAmount < B / 4 := by
  intro t
  induction t with
  | nil => intro a h; exact absurd h (by simp [waitForBuffer])
  | cons obs rest ih =>
    intro a h
    simp only [waitForBuffer] at h
    by_cases ho : obs.isOpen = false
    · rw [if_pos ho] at h
      exact absurd h (by simp)
    · rw [if_neg ho] at h
      by_cases hta : m < a
      · rw [if_pos hta] at h
        exact absurd h (by simp)
      · rw [if_neg hta] at h
        by_cases hb : obs.bufferedAmount < B / 4
        · exact ⟨obs, List.mem_cons_self obs rest,
            by simpa using ho, hb⟩
        · rw [if_neg hb] at h
          obtain ⟨o, hmem, ho⟩ := ih (a + 1) h
          exact ⟨o, List.mem_cons_of_mem obs hmem, ho⟩

theorem waitForBuffer_timeout (B m : Nat) :
    ∀ (t : List ChannelObs) (a : Nat),
      (∀ obs ∈ t, obs.isOpen = true ∧ B / 4 ≤ obs.bufferedAmount) →
      a ≤ m + 1 → m + 2 ≤ a + t.length →
      waitForBuffer B m a t = .timeoutError := by
  intro t
  induction t with
  | nil =>
    intro a _ h1 h2
    simp only [List.length_nil] at h2
    omega
  | cons obs rest ih =>
    intro a hobs h1 h2
    have hhead := hobs obs (List.mem_cons_self obs rest)
    simp only [waitForBuffer]
    rw [if_neg (by simp [hhead.1])]
    by_cases hma : m < a
    · rw [if_pos hma]
    · rw [if_neg hma, if_neg (by
        have := hhead.2
        omega)]
      refine ih (a + 1) (fun o ho => hobs o (List.mem_cons_of_mem obs ho)) (by omega) ?_
      simp only [List.length_cons] at h2
      omega

theorem waitForBuffer_closed (B m : Nat) :
    ∀ (t : List ChannelObs) (a b : Nat),
      (∀ obs ∈ t, obs.isOpen = true ∧ B / 4 ≤ obs.bufferedAmount) →
      a + t.length ≤ m + 1 →
      waitForBuffer B m a (t ++ [⟨false, b⟩]) = .closedError := by
  intro t
  induction t with
  | nil =>
    intro a b _ _
    simp only [List.nil_append, waitForBuffer]
    simp
  | cons obs rest ih =>
    intro a b hobs hlen
    have hhead := hobs obs (List.mem_cons_self obs rest)
    simp only [List.cons_append, waitForBuffer]
    rw [if_neg (by simp [hhead.1])]
    simp only [List.length_cons] at hlen
    rw [if_neg (by omega), if_neg (by
      have := hhead.2
      omega)]
    exact ih (a + 1) b (fun o ho => hobs o (List.mem_cons_of_mem obs ho)) (by omega)

/-- Claim C7 as amended: the capacity wait resolves only when some poll
observes the channel open with `bufferedAmount` strictly below the threshold
`maxBuffered / 4` (a quarter of the budget, not the budget itself); a poll
that observes the channel not open rejects with the connection-closed error
(the open check precedes both other checks); and when every poll sees the
buffered amount at or above the threshold, the wait rejects with the buffer
timeout only after `maxAttempts + 1` such polls (the comparison
`attempts > maxAttempts` is strict), the rejection firing on the following
callback. -/
theorem c7_flow_control_amended (B m : Nat) (t : List ChannelObs) :
    (waitForBuffer B m 0 t = .resolved →
      ∃ obs ∈ t, obs.isOpen = true ∧ obs.bufferedAmount < B / 4) ∧
      ((∀ obs ∈ t, obs.isOpen = true ∧ B / 4 ≤ obs.bufferedAmount) → m + 2 ≤ t.length →
        waitForBuffer B m 0 t = .timeoutError) ∧
      (∀ b, (∀ obs ∈ t, obs.isOpen = true ∧ B / 4 ≤ obs.bufferedAmount) →
        t.length ≤ m + 1 →
        waitForBuffer B m 0 (t ++ [⟨false, b⟩]) = .closedError) := by
  refine ⟨waitForBuffer_resolved_below B m t 0, ?_, ?_⟩
  · intro hobs hlen
    exact waitForBuffer_timeout B m t 0 hobs (by omega) (by omega)
  · intro b hobs hlen
    exact waitForBuffer_closed B m t 0 b hobs (by omega)

theorem c7_flow_control_amended_witness :
    (∀ obs ∈ [(⟨true, 8192⟩ : ChannelObs), ⟨true, 8192⟩, ⟨true, 8192⟩],
        obs.isOpen = true ∧ 8192 / 4 ≤ obs.bufferedAmount) ∧
      1 + 2 ≤ ([(⟨true, 8192⟩ : ChannelObs), ⟨true, 8192⟩, ⟨true, 8192⟩]).length ∧
      waitForBuffer 8192 1 0 [⟨true, 8192⟩, ⟨true, 8192⟩, ⟨true, 8192⟩] = .timeoutError :=
  ⟨by decide, by decide,
    (c7_flow_control_amended 8192 1 [⟨true, 8192⟩, ⟨true, 8192⟩, ⟨true, 8192⟩]).2.1
      (by decide) (by decide)⟩

end UnifiedTransfer
